import Mathlib

/-!
A shallow embedding of the cache simulator in `src/csim.c` (CS2011 Cachelab).

Modelling conventions:
* C machine integers become `Nat` (for the unsigned 64-bit tags, addresses and
  masks, with explicit `% 2 ^ 64` where wrap-around matters) or `Int` (for the
  C `int` configuration fields `sbits`, `tbits`, `bytes_per_line`, which can be
  negative).
* The per-set LRU doubly-linked list with head/tail sentry nodes
  (`lru_node`, built by `allocate_lru_tracker`) is embedded as the list of the
  line indices carried by its non-sentry nodes, from most- to least-recently
  used.  A node with field `idx = j` stands for line index `j - 1`; dropping
  the sentries and the `±1` offset, the freshly built list is
  `[0, 1, ..., E-1]`.  The pointer surgeries in `LRU_hit`, `LRU_cold` and
  `LRU_miss` are exactly "unlink one node, relink it at the head", which on the
  index list is "remove one entry and cons it in front".
* `malloc`-ed but uninitialised line tags (only `valid` is cleared in
  `allocate_cache`) are modelled as `0`; an invalid line's tag is never read
  by any simulator path, so the choice is unobservable.
* The enum `HitOrMiss` value `MISS` carries no data in C; following the spec's
  `AccessOutcome`, the embedded `miss` constructor records the tag that was in
  the victim line at the moment `LRU_miss` overwrites it (the evicted tag),
  read off the pre-state exactly where C overwrites `lines[current->idx-1].tag`.
-/

set_option maxRecDepth 4000

/-- C struct: `struct line { bool valid; unsigned long long tag; }`. -/
structure Line where
  valid : Bool
  tag : Nat
deriving DecidableEq, Repr

/-- One set of the cache: its `line *lines` array together with the LRU
recency list for the set (C keeps the latter in the parallel array
`cache.lru_tracker[set_id]`; we store it alongside the lines). The recency
list holds line indices, most-recently-used first. -/
structure SetState where
  lines : List Line
  order : List Nat
deriving DecidableEq, Repr

/-- C struct: `struct cache` (csim.c lines 90-98).  The `set *sets` array and the
`lru_node **lru_tracker` array are fused into `sets : List SetState`; the
unused `verbose` flag is dropped.  `lines_per_set` is stored as a `Nat`:
every C loop bounded by it runs `max lines_per_set 0` times, so a negative
value behaves as `0`. -/
structure Cache where
  sets : List SetState
  lines_per_set : Nat
  bytes_per_line : Int
  sbits : Int
  tbits : Int
deriving DecidableEq, Repr

/-- C struct: `struct location { int set_id; unsigned long long tag_id; }`. -/
structure Location where
  set_id : Nat
  tag_id : Nat
deriving DecidableEq, Repr

/-- C enum: `enum HitOrMiss {HIT, COLD_MISS, MISS}`; the `miss` case additionally
records the evicted tag (the value of `lines[victim].tag` just before
`LRU_miss` overwrites it), per the spec's `AccessOutcome`. -/
inductive HitOrMiss where
  | hit : HitOrMiss
  | coldMiss : HitOrMiss
  | miss : Nat → HitOrMiss
deriving DecidableEq, Repr

/-- C struct: `struct cache_performance { int hits; int misses; int evictions; }`.
The counters only ever increase, so `Nat` is faithful. -/
structure CachePerformance where
  hits : Nat
  misses : Nat
  evictions : Nat
deriving DecidableEq, Repr

/-- One parsed trace record: `fscanf(trace_file, " %c %x,%d", type, address, size)`.
`op` is the raw character; `address` is the number written in the trace
(the C parse truncates it to `unsigned int`, see `processRecord`);
`size` is parsed but never used. -/
structure TraceRecord where
  op : Char
  address : Nat
  size : Int
deriving DecidableEq, Repr

/-- Reading `lines[j]`: out-of-range reads cannot happen in C under the
invariants, and default to an invalid line here. -/
def getLine (lines : List Line) (j : Nat) : Line :=
  lines.getD j ⟨false, 0⟩

/-- Writing `lines[j].tag = t` (the `valid` field is untouched).
Out of range: no-op. -/
def setTag : List Line → Nat → Nat → List Line
  | [], _, _ => []
  | l :: ls, 0, t => { l with tag := t } :: ls
  | l :: ls, n + 1, t => l :: setTag ls n t

/-- The loop in `cache_scan` (csim.c lines 378-389) that looks for a line
with `lines[i].tag == tag_id && lines[i].valid`, returning the first such
index `i`. -/
def findMatch : List Line → Nat → Option Nat
  | [], _ => none
  | l :: ls, t => if l.tag = t ∧ l.valid then some 0 else (findMatch ls t).map (· + 1)

/-- The loop in `LRU_cold` (csim.c lines 463-492): walk the recency list and
return the first line index whose line is invalid. -/
def firstInvalid (lines : List Line) : List Nat → Option Nat
  | [] => none
  | j :: rest => if (getLine lines j).valid then firstInvalid lines rest else some j

/-- Remove the first occurrence of `x` (unlinking one node from the list). -/
def removeFirst (x : Nat) : List Nat → List Nat
  | [] => []
  | y :: l => if y = x then l else y :: removeFirst x l

/-- The line index of the node `LRU_miss` (csim.c lines 501-531) overwrites:
for `lines_per_set > 1` it walks to the tail sentry and backs up one node
(the least-recently-used line, the last entry of the recency list); for
`lines_per_set <= 1` it stays on the first non-sentry node (the head of the
recency list). -/
def victimIdx (E : Nat) (order : List Nat) : Nat :=
  if 1 < E then order.getLastD 0 else order.headD 0

/-- C function `LRU_hit` (csim.c lines 408-446): find the node for line `z` in the
recency list and relink it at the head, then rewrite `lines[z].tag = tag_id`
(the same value that produced the hit).  If the node is not found the loop
falls off the end and nothing changes. -/
def LRU_hit (st : SetState) (tag_id : Nat) (z : Nat) : SetState :=
  if z ∈ st.order then
    { lines := setTag st.lines z tag_id, order := z :: removeFirst z st.order }
  else st

/-- C function `LRU_cold` (csim.c lines 454-493): find the first invalid line in recency
order, relink its node at the head, store the tag and set the valid bit.
If every scanned line is valid the loop falls off the end and nothing
changes (unreachable from `cache_scan`). -/
def LRU_cold (st : SetState) (tag_id : Nat) : SetState :=
  match firstInvalid st.lines st.order with
  | some j => { lines := st.lines.set j ⟨true, tag_id⟩, order := j :: removeFirst j st.order }
  | none => st

/-- C function `LRU_miss` (csim.c lines 501-531): move the victim node to the head of
the recency list (only when `lines_per_set > 1`; with one line per set no
relinking is needed), then overwrite the victim line's tag.  The valid bit
is not written: it stays `true`. -/
def LRU_miss (E : Nat) (st : SetState) (tag_id : Nat) : SetState :=
  { lines := setTag st.lines (victimIdx E st.order) tag_id,
    order := if 1 < E then victimIdx E st.order :: st.order.dropLast else st.order }

/-- The body of `cache_scan` (csim.c lines 367-399) restricted to the one set
it touches, `sim_cache->sets[loc->set_id]`: look for a matching valid line
(hit), otherwise check whether every line is valid (miss with eviction)
or not (cold miss).  `E` is `sim_cache->lines_per_set`.  The `miss` outcome
carries `lines[victim].tag` read before `LRU_miss` overwrites it. -/
def scanSet (E : Nat) (st : SetState) (tag_id : Nat) : HitOrMiss × SetState :=
  match findMatch st.lines tag_id with
  | some i => (.hit, LRU_hit st tag_id i)
  | none =>
    if st.lines.all (fun l => l.valid) then
      (.miss (getLine st.lines (victimIdx E st.order)).tag, LRU_miss E st tag_id)
    else
      (.coldMiss, LRU_cold st tag_id)

/-- Reading `sim_cache->sets[i]` (with its recency list). -/
def getSet (c : Cache) (i : Nat) : SetState :=
  c.sets.getD i ⟨[], []⟩

/-- C function `cache_scan(loc, sim_cache)` (csim.c lines 367-399): runs `scanSet` on
set `loc->set_id` and stores the updated set back; no other set changes. -/
def cache_scan (loc : Location) (c : Cache) : HitOrMiss × Cache :=
  let r := scanSet c.lines_per_set (getSet c loc.set_id) loc.tag_id
  (r.1, { c with sets := c.sets.set loc.set_id r.2 })

/-- C function `get_set_and_tag(loc, address, tbits, sbits)` (csim.c lines 293-305).
`~0` is a C `int` holding `-1`; once widened to the declared
`unsigned long long` it is the 64-bit all-ones word, so the mask arithmetic
is carried out on 64-bit values (reduced `% 2 ^ 64`), matching the declared
types of `tag_mask`, `set_mask` and `address`. -/
def get_set_and_tag (address : Nat) (tbits sbits : Nat) : Location :=
  let tag_mask : Nat := ((2 ^ 64 - 1) <<< (64 - tbits)) % 2 ^ 64
  let set_mask : Nat := (((2 ^ 64 - 1) <<< (64 - sbits)) % 2 ^ 64) >>> tbits
  { tag_id := (tag_mask &&& address) >>> (64 - tbits),
    set_id := (set_mask &&& address) >>> (64 - tbits - sbits) }

/-- Number of sets allocated: the loops in `allocate_cache` and
`allocate_lru_tracker` run for `i < pow(2, sbits)`, which is `2 ^ sbits`
iterations for `sbits ≥ 0` and none when `pow` returns a value below 1. -/
def numSets (sbits : Int) : Nat :=
  if sbits < 0 then 0 else 2 ^ sbits.toNat

/-- A freshly allocated set (`allocate_cache` lines 226-231 clears every
valid bit; `allocate_lru_tracker` lines 243-262 builds the recency list
whose non-sentry nodes carry the line indices `0, 1, ..., E-1` in order). -/
def freshSet (E : Nat) : SetState :=
  { lines := List.replicate E ⟨false, 0⟩, order := List.range E }

/-- C function `setup_cache(&c, sbits, lines_per_set, bytes_per_line, tbits)`
(csim.c lines 205-218) followed by `allocate_cache`/`allocate_lru_tracker`:
stores the parameters (the `tbits` argument is ignored and recomputed as
`64 - (sbits + bytes_per_line)`, line 214) and allocates `numSets sbits`
fresh sets.  There is no validation of any parameter. -/
def setup_cache (sbits lines_per_set bytes_per_line : Int) (tbits : Int) : Cache :=
  { sets := List.replicate (numSets sbits) (freshSet lines_per_set.toNat),
    lines_per_set := lines_per_set.toNat,
    bytes_per_line := bytes_per_line,
    sbits := sbits,
    tbits := 64 - (sbits + bytes_per_line) }

/-- One engine-level access, the spec's `access(cache, address)`: decode the
address with the cache's stored bit widths, then `cache_scan`.  This is the
body of `simulate_cache`'s loop without the counter bookkeeping. -/
def cache_access (c : Cache) (address : Nat) : HitOrMiss × Cache :=
  cache_scan (get_set_and_tag address c.tbits.toNat c.sbits.toNat) c

/-- The address value `get_set_and_tag` receives for a trace record: the
`%x` field is parsed into an `unsigned int` (csim.c line 318/327), so the
value is truncated to 32 bits before being widened back for decoding. -/
def parsedAddress (r : TraceRecord) : Nat :=
  r.address % 2 ^ 32

/-- The hit/miss/eviction bookkeeping shared by the `'M'`/`'S'`/`'L'` cases
of `simulate_cache` (csim.c lines 336-344). -/
def countScan (cp : CachePerformance) (out : HitOrMiss) : CachePerformance :=
  match out with
  | .hit => { cp with hits := cp.hits + 1 }
  | .coldMiss => { cp with misses := cp.misses + 1 }
  | .miss _ => { cp with misses := cp.misses + 1, evictions := cp.evictions + 1 }

/-- One iteration of the `simulate_cache` loop (csim.c lines 327-352):
`'M'` increments `hits` and falls through to the `'S'`/`'L'` logic, which
decodes the (32-bit-truncated) address, scans the cache, and updates the
counters; `'I'` and unknown operation characters do nothing. -/
def processRecord (c : Cache) (cp : CachePerformance) (r : TraceRecord) : Cache × CachePerformance :=
  if r.op = 'M' ∨ r.op = 'S' ∨ r.op = 'L' then
    let res := cache_scan (get_set_and_tag (parsedAddress r) c.tbits.toNat c.sbits.toNat) c
    let cp0 := if r.op = 'M' then { cp with hits := cp.hits + 1 } else cp
    (res.2, countScan cp0 res.1)
  else (c, cp)

/-- C function `simulate_cache(cp, sim_cache, trace_file)` (csim.c lines 314-359) over
an already-parsed list of records. -/
def simulate_cache (c : Cache) (cp : CachePerformance) : List TraceRecord → Cache × CachePerformance
  | [] => (c, cp)
  | r :: rs =>
    let step := processRecord c cp r
    simulate_cache step.1 step.2 rs

/-- Replay a list of addresses through `cache_access`, collecting the
per-access outcomes. -/
def replayAccesses (c : Cache) : List Nat → List HitOrMiss × Cache
  | [] => ([], c)
  | a :: as =>
    let r := cache_access c a
    let rest := replayAccesses r.2 as
    (r.1 :: rest.1, rest.2)

/-- Replay a list of tags through `scanSet` on one set, collecting the
per-access outcomes. -/
def scanTags (E : Nat) (st : SetState) : List Nat → List HitOrMiss × SetState
  | [] => ([], st)
  | t :: ts =>
    let r := scanSet E st t
    let rest := scanTags E r.2 ts
    (r.1 :: rest.1, rest.2)

/-- A valid line holding tag `t`. -/
def mkValid (t : Nat) : Line :=
  ⟨true, t⟩

/-- The state of a set of capacity `E` after the cold misses for the
distinct tags `ts` (in access order) and nothing else: slots
`0, ..., ts.length - 1` hold the tags in order, the rest are still invalid,
and the recency list is the occupied slots newest-first followed by the
free slots in their original order. -/
def filledSet (E : Nat) (ts : List Nat) : SetState :=
  { lines := ts.map mkValid ++ List.replicate (E - ts.length) ⟨false, 0⟩,
    order := (List.range ts.length).reverse ++ List.range' ts.length (E - ts.length) }

/-- Cache states reachable from the cache `main` builds for set-index bits
`s`, block-offset bits `b` and associativity `E` (csim.c line 178 passes
`64 - (s + b)` as the ignored `tbits` argument) by any sequence of
engine-level accesses. -/
inductive ReachableCache (s b E : Nat) : Cache → Prop where
  | base : ReachableCache s b E (setup_cache s E b (64 - ((s : Int) + (b : Int))))
  | step : ∀ c a, ReachableCache s b E c → ReachableCache s b E (cache_access c a).2

/-- The structural invariant of a reachable cache: the right number of sets,
the stored geometry, and per set the full complement of lines plus a
recency list that is a permutation of all line indices. -/
def cacheWF (s b E : Nat) (c : Cache) : Prop :=
  c.sets.length = 2 ^ s ∧ c.lines_per_set = E ∧ c.sbits = (s : Int) ∧
    c.tbits = 64 - ((s : Int) + (b : Int)) ∧
    ∀ st ∈ c.sets, st.lines.length = E ∧ st.order.Perm (List.range E)

/-- The per-set part of `cacheWF`, as claimed by the spec's recency-order
invariant. -/
def setsWF (E : Nat) (c : Cache) : Prop :=
  ∀ st ∈ c.sets, st.order.Perm (List.range E) ∧ st.order.length = E

/-! ### Basic list helpers -/

theorem getD_set_self {α : Type} (l : List α) (i : Nat) (x d : α) (h : i < l.length) :
    (l.set i x).getD i d = x := by
  induction l generalizing i with
  | nil => simp at h
  | cons a t ih =>
    cases i with
    | zero => rfl
    | succ n => simpa using ih n (by simpa using h)

theorem getD_set_ne {α : Type} (l : List α) (i j : Nat) (x d : α) (h : i ≠ j) :
    (l.set i x).getD j d = l.getD j d := by
  induction l generalizing i j with
  | nil => rfl
  | cons a t ih =>
    cases i with
    | zero =>
      cases j with
      | zero => exact absurd rfl h
      | succ m => rfl
    | succ n =>
      cases j with
      | zero => rfl
      | succ m => simpa using ih n m (by omega)

theorem set_getD_self {α : Type} (l : List α) (i : Nat) (d : α) :
    l.set i (l.getD i d) = l := by
  induction l generalizing i with
  | nil => rfl
  | cons a t ih =>
    cases i with
    | zero => rfl
    | succ n => simpa using ih n

theorem getD_mem {α : Type} (l : List α) (i : Nat) (d : α) (h : i < l.length) :
    l.getD i d ∈ l := by
  induction l generalizing i with
  | nil => simp at h
  | cons a t ih =>
    cases i with
    | zero => simp
    | succ n => exact List.mem_cons_of_mem _ (ih n (by simpa using h))

theorem mem_of_mem_set {α : Type} (l : List α) (i : Nat) (x y : α)
    (h : y ∈ l.set i x) : y ∈ l ∨ y = x := by
  induction l generalizing i with
  | nil => simp at h
  | cons a t ih =>
    cases i with
    | zero =>
      rcases List.mem_cons.1 h with h1 | h1
      · exact Or.inr h1
      · exact Or.inl (List.mem_cons_of_mem _ h1)
    | succ n =>
      rcases List.mem_cons.1 h with h1 | h1
      · exact Or.inl (h1 ▸ List.mem_cons_self _ _)
      · rcases ih n h1 with h2 | h2
        · exact Or.inl (List.mem_cons_of_mem _ h2)
        · exact Or.inr h2

theorem getD_append_lt {α : Type} (l1 l2 : List α) (j : Nat) (d : α) (h : j < l1.length) :
    (l1 ++ l2).getD j d = l1.getD j d := by
  induction l1 generalizing j with
  | nil => simp at h
  | cons a t ih =>
    cases j with
    | zero => rfl
    | succ n => simpa using ih n (by simpa using h)

theorem getD_append_ge {α : Type} (l1 l2 : List α) (j : Nat) (d : α) (h : l1.length ≤ j) :
    (l1 ++ l2).getD j d = l2.getD (j - l1.length) d := by
  induction l1 generalizing j with
  | nil => simp
  | cons a t ih =>
    cases j with
    | zero => simp at h
    | succ n =>
      have := ih n (by simpa using h)
      simpa [Nat.succ_sub_one] using this

theorem set_append_len {α : Type} (l1 l2 : List α) (x : α) :
    (l1 ++ l2).set l1.length x = l1 ++ l2.set 0 x := by
  induction l1 with
  | nil => rfl
  | cons a t ih => simpa using ih

theorem getLastD_concat' {α : Type} (l : List α) (a d : α) :
    (l ++ [a]).getLastD d = a := by
  induction l with
  | nil => rfl
  | cons b t ih =>
    cases t with
    | nil => rfl
    | cons c u => simpa using ih

theorem mem_getLastD {α : Type} (l : List α) (d : α) (h : l ≠ []) :
    l.getLastD d ∈ l := by
  induction l with
  | nil => exact absurd rfl h
  | cons a t ih =>
    cases t with
    | nil => simp [List.getLastD]
    | cons b u =>
      exact List.mem_cons_of_mem _ (ih (by simp))

theorem mem_headD {α : Type} (l : List α) (d : α) (h : l ≠ []) :
    l.headD d ∈ l := by
  cases l with
  | nil => exact absurd rfl h
  | cons a t => simp

theorem perm_getLastD_dropLast {α : Type} [DecidableEq α] (l : List α) (d : α) (h : l ≠ []) :
    (l.getLastD d :: l.dropLast).Perm l := by
  induction l with
  | nil => exact absurd rfl h
  | cons a t ih =>
    cases t with
    | nil => simp [List.getLastD]
    | cons b u =>
      have ht : (b :: u) ≠ [] := by simp
      have step : ((b :: u).getLastD d :: a :: (b :: u).dropLast).Perm
          (a :: (b :: u).getLastD d :: (b :: u).dropLast) := List.Perm.swap _ _ _
      have : (a :: (b :: u).getLastD d :: (b :: u).dropLast).Perm (a :: b :: u) :=
        List.Perm.cons a (ih ht)
      simpa using step.trans this

/-! ### `findMatch`, `removeFirst`, `firstInvalid` -/

theorem findMatch_eq_none (lines : List Line) (t : Nat)
    (h : ∀ l ∈ lines, l.tag ≠ t ∨ l.valid = false) : findMatch lines t = none := by
  induction lines with
  | nil => rfl
  | cons l ls ih =>
    have hl := h l (List.mem_cons_self _ _)
    have hne : ¬(l.tag = t ∧ l.valid) := by
      rcases hl with h1 | h1
      · exact fun hc => h1 hc.1
      · exact fun hc => by simp [h1] at hc
    simp only [findMatch, if_neg hne]
    rw [ih (fun x hx => h x (List.mem_cons_of_mem _ hx))]
    rfl

theorem findMatch_some (lines : List Line) (t : Nat) (i : Nat)
    (h : findMatch lines t = some i) :
    i < lines.length ∧ (getLine lines i).tag = t ∧ (getLine lines i).valid = true := by
  induction lines generalizing i with
  | nil => simp [findMatch] at h
  | cons l ls ih =>
    by_cases hc : l.tag = t ∧ l.valid
    · simp only [findMatch, if_pos hc, Option.some.injEq] at h
      subst h
      exact ⟨by simp, by simp [getLine, hc.1], by simp [getLine, hc.2]⟩
    · simp only [findMatch, if_neg hc] at h
      cases hfm : findMatch ls t with
      | none => rw [hfm] at h; simp at h
      | some j =>
        rw [hfm] at h
        simp only [Option.map_some', Option.some.injEq] at h
        obtain ⟨h1, h2, h3⟩ := ih j hfm
        subst h
        exact ⟨by simpa using h1, by simpa [getLine] using h2, by simpa [getLine] using h3⟩

theorem findMatch_isSome_of_resident (lines : List Line) (t : Nat)
    (h : ∃ l ∈ lines, l.valid = true ∧ l.tag = t) : ∃ i, findMatch lines t = some i := by
  induction lines with
  | nil => simp at h
  | cons l ls ih =>
    by_cases hc : l.tag = t ∧ l.valid
    · exact ⟨0, by simp [findMatch, if_pos hc]⟩
    · obtain ⟨x, hx, hv, ht⟩ := h
      rcases List.mem_cons.1 hx with h1 | h1
      · subst h1; exact absurd ⟨ht, hv⟩ hc
      · obtain ⟨j, hj⟩ := ih ⟨x, h1, hv, ht⟩
        exact ⟨j + 1, by simp [findMatch, if_neg hc, hj]⟩

theorem setTag_of_match (lines : List Line) (t : Nat) (i : Nat)
    (h : findMatch lines t = some i) : setTag lines i t = lines := by
  induction lines generalizing i with
  | nil => rfl
  | cons l ls ih =>
    by_cases hc : l.tag = t ∧ l.valid
    · simp only [findMatch, if_pos hc, Option.some.injEq] at h
      subst h
      simp [setTag, ← hc.1]
    · simp only [findMatch, if_neg hc] at h
      cases hfm : findMatch ls t with
      | none => rw [hfm] at h; simp at h
      | some j =>
        rw [hfm] at h
        simp only [Option.map_some', Option.some.injEq] at h
        subst h
        simp [setTag, ih j hfm]

theorem length_setTag (lines : List Line) (i t : Nat) :
    (setTag lines i t).length = lines.length := by
  induction lines generalizing i with
  | nil => rfl
  | cons l ls ih =>
    cases i with
    | zero => rfl
    | succ n => simpa [setTag] using ih n

theorem getLine_setTag_self (lines : List Line) (i t : Nat) (h : i < lines.length) :
    getLine (setTag lines i t) i = { getLine lines i with tag := t } := by
  induction lines generalizing i with
  | nil => simp at h
  | cons l ls ih =>
    cases i with
    | zero => rfl
    | succ n => simpa [setTag, getLine] using ih n (by simpa using h)

theorem removeFirst_cons_self (x : Nat) (l : List Nat) :
    removeFirst x (x :: l) = l := by
  simp [removeFirst]

theorem removeFirst_append_not_mem (x : Nat) (l1 l2 : List Nat) (h : x ∉ l1) :
    removeFirst x (l1 ++ l2) = l1 ++ removeFirst x l2 := by
  induction l1 with
  | nil => rfl
  | cons a t ih =>
    have ha : a ≠ x := fun hc => h (hc ▸ List.mem_cons_self _ _)
    simp only [List.cons_append, removeFirst, if_neg ha]
    rw [show t.append l2 = t ++ l2 from rfl, ih (fun hc => h (List.mem_cons_of_mem _ hc))]

theorem perm_cons_removeFirst (x : Nat) (l : List Nat) (h : x ∈ l) :
    (x :: removeFirst x l).Perm l := by
  induction l with
  | nil => simp at h
  | cons a t ih =>
    by_cases ha : a = x
    · subst ha
      simp [removeFirst]
    · have hx : x ∈ t := by
        rcases List.mem_cons.1 h with h1 | h1
        · exact absurd h1.symm ha
        · exact h1
      simp only [removeFirst, if_neg ha]
      exact ((List.Perm.swap a x (removeFirst x t)).trans (List.Perm.cons a (ih hx)))

theorem firstInvalid_some (lines : List Line) (order : List Nat) (j : Nat)
    (h : firstInvalid lines order = some j) :
    j ∈ order ∧ (getLine lines j).valid = false := by
  induction order with
  | nil => simp [firstInvalid] at h
  | cons a t ih =>
    by_cases hv : (getLine lines a).valid
    · simp only [firstInvalid, if_pos hv] at h
      obtain ⟨h1, h2⟩ := ih h
      exact ⟨List.mem_cons_of_mem _ h1, h2⟩
    · simp only [firstInvalid, if_neg hv, Option.some.injEq] at h
      subst h
      exact ⟨List.mem_cons_self _ _, by simpa using hv⟩

theorem firstInvalid_none (lines : List Line) (order : List Nat)
    (h : firstInvalid lines order = none) :
    ∀ j ∈ order, (getLine lines j).valid = true := by
  induction order with
  | nil => simp
  | cons a t ih =>
    by_cases hv : (getLine lines a).valid
    · simp only [firstInvalid, if_pos hv] at h
      intro j hj
      rcases List.mem_cons.1 hj with h1 | h1
      · exact h1 ▸ hv
      · exact ih h j h1
    · simp [firstInvalid, if_neg hv] at h

theorem firstInvalid_append_valid (lines : List Line) (l1 l2 : List Nat)
    (h : ∀ j ∈ l1, (getLine lines j).valid = true) :
    firstInvalid lines (l1 ++ l2) = firstInvalid lines l2 := by
  induction l1 with
  | nil => rfl
  | cons a t ih =>
    have ha := h a (List.mem_cons_self _ _)
    simp only [List.cons_append, firstInvalid, if_pos ha]
    exact ih (fun j hj => h j (List.mem_cons_of_mem _ hj))

/-! ### Address-decoding arithmetic -/

theorem mask_shl_mod (k : Nat) (hk : k ≤ 64) :
    ((2 ^ 64 - 1) <<< k) % 2 ^ 64 = 2 ^ 64 - 2 ^ k := by
  rw [Nat.shiftLeft_eq]
  have hQP : 2 ^ k ≤ 2 ^ 64 := Nat.pow_le_pow_right (by norm_num) hk
  have hQ1 : 0 < 2 ^ k := pow_pos (by norm_num) _
  have hP1 : 0 < 2 ^ 64 := pow_pos (by norm_num) _
  have key : (2 ^ 64 - 1) * 2 ^ k = (2 ^ 64 - 2 ^ k) + (2 ^ k - 1) * 2 ^ 64 := by
    have h1 : (2 ^ 64 - 1) * 2 ^ k = 2 ^ 64 * 2 ^ k - 2 ^ k := by
      rw [Nat.sub_mul, one_mul]
    have h2 : (2 ^ k - 1) * 2 ^ 64 = 2 ^ k * 2 ^ 64 - 2 ^ 64 := by
      rw [Nat.sub_mul, one_mul]
    have h3 : 2 ^ 64 * 2 ^ k = 2 ^ k * 2 ^ 64 := Nat.mul_comm _ _
    have h4 : 2 ^ 64 ≤ 2 ^ k * 2 ^ 64 := Nat.le_mul_of_pos_left _ hQ1
    have h5 : 2 ^ k ≤ 2 ^ k * 2 ^ 64 := Nat.le_mul_of_pos_right _ hP1
    omega
  rw [key, Nat.add_mul_mod_self_right, Nat.mod_eq_of_lt (by omega)]

theorem and_mask_shr (a n j : Nat) :
    (((2 ^ n - 1) <<< j) &&& a) >>> j = (a >>> j) % 2 ^ n := by
  apply Nat.eq_of_testBit_eq
  intro i
  rw [Nat.testBit_shiftRight, Nat.testBit_and, Nat.testBit_shiftLeft,
    Nat.testBit_two_pow_sub_one, Nat.testBit_mod_two_pow, Nat.testBit_shiftRight]
  have h1 : j ≤ j + i := Nat.le_add_right _ _
  have h2 : j + i - j = i := by omega
  simp only [ge_iff_le, h1, decide_True, h2, Bool.true_and]

theorem set_mask_eq (s b : Nat) (hsb : s + b ≤ 64) :
    (((2 ^ 64 - 1) <<< (64 - s)) % 2 ^ 64) >>> (64 - s - b) = (2 ^ s - 1) <<< b := by
  rw [mask_shl_mod _ (by omega), Nat.shiftRight_eq_div_pow, Nat.shiftLeft_eq]
  have h1 : 2 ^ 64 - 2 ^ (64 - s) = (2 ^ s - 1) * 2 ^ b * 2 ^ (64 - s - b) := by
    have e1 : (2 : Nat) ^ b * 2 ^ (64 - s - b) = 2 ^ (64 - s) := by
      rw [← pow_add]
      congr 1
      omega
    have e2 : (2 : Nat) ^ s * 2 ^ (64 - s) = 2 ^ 64 := by
      rw [← pow_add]
      congr 1
      omega
    rw [Nat.mul_assoc, e1, Nat.sub_mul, one_mul, e2]
  rw [h1, Nat.mul_div_cancel _ (pow_pos (by norm_num) _)]

/-- The behaviour of `get_set_and_tag` for a valid geometry, as called by the
simulator (`tbits = 64 - sbits - block offset bits`): the tag is the top
`tbits` bits of the address, the set index is the `sbits` bits directly
above the block offset. -/
theorem get_set_and_tag_eq (a s b : Nat) (ha : a < 2 ^ 64) (hsb : s + b ≤ 64) :
    get_set_and_tag a (64 - s - b) s = ⟨(a >>> b) % 2 ^ s, a >>> (s + b)⟩ := by
  have hts : 64 - (64 - s - b) = s + b := by omega
  have hmt : ((2 ^ 64 - 1) <<< (64 - (64 - s - b))) % 2 ^ 64
      = (2 ^ (64 - s - b) - 1) <<< (s + b) := by
    rw [hts, mask_shl_mod _ hsb, Nat.shiftLeft_eq, Nat.sub_mul, one_mul, ← pow_add]
    rw [show 64 - s - b + (s + b) = 64 from by omega]
  simp only [get_set_and_tag]
  rw [hmt, hts, show s + b - s = b from by omega, set_mask_eq s b hsb,
    and_mask_shr, and_mask_shr]
  have hmod : (a >>> (s + b)) % 2 ^ (64 - s - b) = a >>> (s + b) := by
    apply Nat.mod_eq_of_lt
    rw [Nat.shiftRight_eq_div_pow]
    rw [Nat.div_lt_iff_lt_mul (pow_pos (by norm_num) _), ← pow_add]
    rw [show 64 - s - b + (s + b) = 64 from by omega]
    exact ha
  rw [hmod]

/-- The computed set index is always within the allocated set array. -/
theorem set_id_lt (a s b : Nat) (ha : a < 2 ^ 64) (hsb : s + b ≤ 64) :
    (get_set_and_tag a (64 - s - b) s).set_id < 2 ^ s := by
  rw [get_set_and_tag_eq a s b ha hsb]
  exact Nat.mod_lt _ (pow_pos (by norm_num) _)

/-! ### Filling a fresh set with cold misses -/

theorem getLine_map_lt (ts : List Nat) (rest : List Line) (j : Nat) (h : j < ts.length) :
    getLine (ts.map mkValid ++ rest) j = mkValid (ts.getD j 0) := by
  unfold getLine
  rw [getD_append_lt _ _ _ _ (by simpa using h)]
  induction ts generalizing j with
  | nil => simp at h
  | cons u us ih =>
    cases j with
    | zero => rfl
    | succ n => simpa using ih n (by simpa using h)

theorem getLine_replicate (m j : Nat) :
    getLine (List.replicate m ⟨false, 0⟩) j = ⟨false, 0⟩ := by
  unfold getLine
  induction m generalizing j with
  | zero => simp
  | succ n ih =>
    cases j with
    | zero => simp [List.replicate_succ]
    | succ i => simpa [List.replicate_succ] using ih i

theorem getLine_filled_ge (ts : List Nat) (m j : Nat) (h : ts.length ≤ j) :
    getLine (ts.map mkValid ++ List.replicate m ⟨false, 0⟩) j = ⟨false, 0⟩ := by
  unfold getLine
  rw [getD_append_ge _ _ _ _ (by simpa using h)]
  have := getLine_replicate m (j - (ts.map mkValid).length)
  simpa [getLine] using this

theorem not_mem_range_reverse (k : Nat) : k ∉ (List.range k).reverse := by
  intro h
  exact absurd (List.mem_range.1 (List.mem_reverse.1 h)) (lt_irrefl k)

theorem LRU_cold_eq_of_firstInvalid (st : SetState) (t j : Nat)
    (h : firstInvalid st.lines st.order = some j) :
    LRU_cold st t = SetState.mk (st.lines.set j ⟨true, t⟩) (j :: removeFirst j st.order) := by
  unfold LRU_cold
  rw [h]

theorem LRU_cold_eq_of_none (st : SetState) (t : Nat)
    (h : firstInvalid st.lines st.order = none) : LRU_cold st t = st := by
  unfold LRU_cold
  rw [h]

/-- One more cold miss on a partially filled set: the first invalid slot in
recency order is slot `ts.length`, it receives the new tag, and moves to the
head of the recency list. -/
theorem scan_cold_step (E : Nat) (ts : List Nat) (t : Nat)
    (hk : ts.length < E) (ht : t ∉ ts) :
    scanSet E (filledSet E ts) t = (.coldMiss, filledSet E (ts ++ [t])) := by
  have hEk : E - ts.length = (E - ts.length - 1) + 1 := by omega
  have hfind : findMatch (filledSet E ts).lines t = none := by
    apply findMatch_eq_none
    intro l hl
    rcases List.mem_append.1 hl with h1 | h1
    · obtain ⟨u, hu, rfl⟩ := List.mem_map.1 h1
      exact Or.inl (fun hc => ht (by simpa [mkValid] using hc ▸ hu))
    · exact Or.inr (by rw [(List.mem_replicate.1 h1).2])
  have hmem : (⟨false, 0⟩ : Line) ∈ (filledSet E ts).lines := by
    show (⟨false, 0⟩ : Line) ∈ ts.map mkValid ++ List.replicate (E - ts.length) ⟨false, 0⟩
    have h0 : E - ts.length ≠ 0 := by omega
    exact List.mem_append.2 (Or.inr (List.mem_replicate.2 (And.intro h0 rfl)))
  have hall : (filledSet E ts).lines.all (fun l => l.valid) = false := by
    cases hc : (filledSet E ts).lines.all (fun l => l.valid) with
    | false => rfl
    | true =>
      have := List.all_eq_true.1 hc _ hmem
      simp at this
  have hvalidFront : ∀ j ∈ (List.range ts.length).reverse,
      (getLine (filledSet E ts).lines j).valid = true := by
    intro j hj
    have hjk : j < ts.length := List.mem_range.1 (List.mem_reverse.1 hj)
    rw [show (filledSet E ts).lines = ts.map mkValid ++ List.replicate (E - ts.length) ⟨false, 0⟩ from rfl]
    rw [getLine_map_lt _ _ _ hjk]
    rfl
  have hfi : firstInvalid (filledSet E ts).lines (filledSet E ts).order = some ts.length := by
    show firstInvalid _ ((List.range ts.length).reverse ++ List.range' ts.length (E - ts.length)) = _
    rw [firstInvalid_append_valid _ _ _ hvalidFront, hEk, List.range'_succ]
    have hinv : (getLine (filledSet E ts).lines ts.length).valid = false := by
      rw [show (filledSet E ts).lines = ts.map mkValid ++ List.replicate (E - ts.length) ⟨false, 0⟩ from rfl]
      rw [getLine_filled_ge _ _ _ (le_refl _)]
    simp [firstInvalid, hinv]
  have hlines : (filledSet E ts).lines.set ts.length ⟨true, t⟩ = (filledSet E (ts ++ [t])).lines := by
    show (ts.map mkValid ++ List.replicate (E - ts.length) (⟨false, 0⟩ : Line)).set ts.length
        (⟨true, t⟩ : Line) = (filledSet E (ts ++ [t])).lines
    rw [show ts.length = (ts.map mkValid).length from (List.length_map _ _).symm, set_append_len]
    rw [List.length_map, hEk, List.replicate_succ]
    show ts.map mkValid ++ ((⟨true, t⟩ : Line) :: List.replicate (E - ts.length - 1) (⟨false, 0⟩ : Line))
        = (ts ++ [t]).map mkValid ++ List.replicate (E - (ts ++ [t]).length) (⟨false, 0⟩ : Line)
    simp [mkValid, List.map_append]
    omega
  have horder : ts.length :: removeFirst ts.length (filledSet E ts).order
      = (filledSet E (ts ++ [t])).order := by
    show ts.length :: removeFirst ts.length ((List.range ts.length).reverse ++ List.range' ts.length (E - ts.length)) = _
    rw [removeFirst_append_not_mem _ _ _ (not_mem_range_reverse _), hEk, List.range'_succ,
      removeFirst_cons_self]
    show _ = (List.range (ts ++ [t]).length).reverse ++ List.range' (ts ++ [t]).length (E - (ts ++ [t]).length)
    simp [List.range_succ, List.reverse_append]
    omega
  simp only [scanSet, hfind, hall, Bool.false_eq_true, if_false, LRU_cold, hfi]
  rw [Prod.mk.injEq]
  refine ⟨rfl, ?_⟩
  rw [hlines, horder]

/-- Replaying a list of fresh distinct tags over an already partially filled
set: every access is a cold miss and the tags fill the next free slots in
index order. -/
theorem scan_cold_fill (E : Nat) (us : List Nat) : ∀ ts : List Nat,
    ts.length + us.length ≤ E → (∀ u ∈ us, u ∉ ts) → us.Nodup →
    scanTags E (filledSet E ts) us = (List.replicate us.length .coldMiss, filledSet E (ts ++ us)) := by
  induction us with
  | nil =>
    intro ts _ _ _
    simp [scanTags]
  | cons u rest ih =>
    intro ts hlen hfresh hnodup
    have hlen' : ts.length + rest.length + 1 ≤ E := by
      rw [List.length_cons] at hlen
      omega
    have hstep := scan_cold_step E ts u (by omega) (hfresh u (List.mem_cons_self _ _))
    have hrest : scanTags E (filledSet E (ts ++ [u])) rest
        = (List.replicate rest.length .coldMiss, filledSet E ((ts ++ [u]) ++ rest)) := by
      apply ih
      · rw [List.length_append, List.length_cons, List.length_nil]
        omega
      · intro v hv hvmem
        rcases List.mem_append.1 hvmem with h1 | h1
        · exact hfresh v (List.mem_cons_of_mem _ hv) h1
        · have : v = u := by simpa using h1
          exact (List.nodup_cons.1 hnodup).1 (this ▸ hv)
      · exact (List.nodup_cons.1 hnodup).2
    show (let r := scanSet E (filledSet E ts) u;
      let rest2 := scanTags E r.2 rest;
      (r.1 :: rest2.1, rest2.2)) = _
    rw [hstep]
    simp only []
    rw [hrest]
    simp [List.append_assoc, List.replicate_succ]

theorem getLastD_range_reverse (E : Nat) (hE : 1 ≤ E) :
    ((List.range E).reverse).getLastD 0 = 0 := by
  obtain ⟨m, rfl⟩ : ∃ m, E = m + 1 := ⟨E - 1, by omega⟩
  rw [List.range_eq_range', List.range'_succ, List.reverse_cons]
  exact getLastD_concat' _ _ _

/-- One access with a fresh tag to a completely filled set: the outcome is a
miss evicting the oldest tag `ts.getD 0 0` from slot `0`, whose valid bit
stays `true` while its tag becomes the new one; all other lines keep their
(valid, tag) content. -/
theorem scan_full_miss (E : Nat) (ts : List Nat) (t : Nat)
    (hlen : ts.length = E) (hE : 1 ≤ E) (ht : t ∉ ts) :
    (scanSet E (filledSet E ts) t).1 = .miss (ts.getD 0 0) ∧
    (scanSet E (filledSet E ts) t).2.lines = mkValid t :: (ts.drop 1).map mkValid := by
  have hrep : E - ts.length = 0 := by omega
  have hlines : (filledSet E ts).lines = ts.map mkValid := by
    show ts.map mkValid ++ List.replicate (E - ts.length) (⟨false, 0⟩ : Line) = _
    rw [hrep]
    simp
  have horder : (filledSet E ts).order = (List.range E).reverse := by
    show (List.range ts.length).reverse ++ List.range' ts.length (E - ts.length) = _
    rw [hrep, hlen]
    simp
  have hfind : findMatch (filledSet E ts).lines t = none := by
    apply findMatch_eq_none
    intro l hl
    rw [hlines] at hl
    obtain ⟨u, hu, rfl⟩ := List.mem_map.1 hl
    exact Or.inl (fun hc => ht (by simpa [mkValid] using hc ▸ hu))
  have hall : (filledSet E ts).lines.all (fun l => l.valid) = true := by
    rw [hlines]
    apply List.all_eq_true.2
    intro x hx
    obtain ⟨u, hu, rfl⟩ := List.mem_map.1 hx
    rfl
  have hvic : victimIdx E (filledSet E ts).order = 0 := by
    rw [horder]
    unfold victimIdx
    by_cases h1 : 1 < E
    · rw [if_pos h1]
      exact getLastD_range_reverse E hE
    · rw [if_neg h1]
      have hE1 : E = 1 := by omega
      subst hE1
      rfl
  have htag : (getLine (filledSet E ts).lines 0).tag = ts.getD 0 0 := by
    rw [hlines]
    cases ts with
    | nil => exfalso; rw [List.length_nil] at hlen; omega
    | cons a us => rfl
  have hnew : setTag (filledSet E ts).lines 0 t = mkValid t :: (ts.drop 1).map mkValid := by
    rw [hlines]
    cases ts with
    | nil => exfalso; rw [List.length_nil] at hlen; omega
    | cons a us => rfl
  constructor
  · simp only [scanSet, hfind, hall, if_true, hvic, htag]
  · simp only [scanSet, hfind, hall, if_true, LRU_miss, hvic, hnew]

/-! ### Lifting per-set reasoning to the whole cache -/

theorem cache_access_same_set (c : Cache) (a : Nat) (σ : Nat)
    (hσ : (get_set_and_tag a c.tbits.toNat c.sbits.toNat).set_id = σ) :
    cache_access c a
      = ((scanSet c.lines_per_set (getSet c σ) (get_set_and_tag a c.tbits.toNat c.sbits.toNat).tag_id).1,
         { c with sets := (c.sets.set σ
            (scanSet c.lines_per_set (getSet c σ) (get_set_and_tag a c.tbits.toNat c.sbits.toNat).tag_id).2) }) := by
  simp only [cache_access, cache_scan, hσ]

/-- Replaying addresses that all decode to set `σ` only rewrites set `σ`,
and does so exactly as `scanTags` on the decoded tags. -/
theorem replay_same_set (σ : Nat) (as : List Nat) : ∀ c : Cache,
    σ < c.sets.length →
    (∀ a ∈ as, (get_set_and_tag a c.tbits.toNat c.sbits.toNat).set_id = σ) →
    replayAccesses c as
      = ((scanTags c.lines_per_set (getSet c σ)
            (as.map (fun x => (get_set_and_tag x c.tbits.toNat c.sbits.toNat).tag_id))).1,
         { c with sets := (c.sets.set σ
            (scanTags c.lines_per_set (getSet c σ)
              (as.map (fun x => (get_set_and_tag x c.tbits.toNat c.sbits.toNat).tag_id))).2) }) := by
  induction as with
  | nil =>
    intro c hσ _
    show ([], c) = (([] : List HitOrMiss), { c with sets := c.sets.set σ (getSet c σ) })
    rw [show c.sets.set σ (getSet c σ) = c.sets from set_getD_self _ _ _]
  | cons a rest ih =>
    intro c hσ hset
    have hloc : (get_set_and_tag a c.tbits.toNat c.sbits.toNat).set_id = σ :=
      hset a (List.mem_cons_self _ _)
    have hacc := cache_access_same_set c a σ hloc
    show (let r := cache_access c a;
      let rest2 := replayAccesses r.2 rest;
      (r.1 :: rest2.1, rest2.2)) = _
    rw [hacc]
    simp only []
    rw [ih { c with sets := (c.sets.set σ
        (scanSet c.lines_per_set (getSet c σ) (get_set_and_tag a c.tbits.toNat c.sbits.toNat).tag_id).2) }
      (by simpa using hσ) (fun x hx => hset x (List.mem_cons_of_mem _ hx))]
    have hget : getSet { c with sets := (c.sets.set σ
        (scanSet c.lines_per_set (getSet c σ) (get_set_and_tag a c.tbits.toNat c.sbits.toNat).tag_id).2) } σ
        = (scanSet c.lines_per_set (getSet c σ) (get_set_and_tag a c.tbits.toNat c.sbits.toNat).tag_id).2 := by
      show (c.sets.set σ _).getD σ _ = _
      exact getD_set_self _ _ _ _ hσ
    rw [hget]
    rw [Prod.mk.injEq]
    constructor
    · rfl
    · show { c with sets := ((c.sets.set σ _).set σ _) } = _
      rw [List.set_set]
      rfl

/-! ### Facts about the freshly built cache -/

theorem getD_replicate {α : Type} (n i : Nat) (x d : α) (h : i < n) :
    (List.replicate n x).getD i d = x := by
  induction n generalizing i with
  | zero => omega
  | succ m ih =>
    cases i with
    | zero => rfl
    | succ j => simpa [List.replicate_succ] using ih j (by omega)

theorem freshSet_eq_filled (E : Nat) : freshSet E = filledSet E [] := by
  unfold freshSet filledSet
  simp [List.range_eq_range']

theorem setup_lines_per_set (s E b : Nat) (t : Int) :
    (setup_cache s E b t).lines_per_set = E := by
  simp [setup_cache]

theorem setup_tbits_toNat (s E b : Nat) (t : Int) (hsb : s + b ≤ 64) :
    (setup_cache s E b t).tbits.toNat = 64 - s - b := by
  simp only [setup_cache]
  omega

theorem setup_sbits_toNat (s E b : Nat) (t : Int) :
    (setup_cache s E b t).sbits.toNat = s := by
  simp [setup_cache]

theorem setup_sets_length (s E b : Nat) (t : Int) :
    (setup_cache s E b t).sets.length = 2 ^ s := by
  simp only [setup_cache, List.length_replicate, numSets]
  rw [if_neg (by omega)]
  simp

theorem setup_getSet (s E b : Nat) (t : Int) (σ : Nat) (hσ : σ < 2 ^ s) :
    getSet (setup_cache s E b t) σ = freshSet E := by
  show (List.replicate (numSets s) (freshSet ((E : Int)).toNat)).getD σ _ = freshSet E
  have hn : numSets (s : Int) = 2 ^ s := by
    unfold numSets
    rw [if_neg (by omega)]
    simp
  rw [hn, getD_replicate _ _ _ _ hσ]
  simp

/-! ### Claim C1 -/

/-- C1 (LRU eviction correctness): for every valid geometry (`s + b ≤ 64`,
`E ≥ 1`), after `E` accesses with pairwise distinct tags all decoding to set
`σ` of a freshly built cache — each of which is a cold miss — one further
access with a new distinct tag to the same set returns `miss` carrying the
evicted tag, and that tag is the tag of the least-recently-touched of the
`E` prior accesses (the first one, since each tag was touched exactly once,
in order).  The victim slot is line 0; its valid bit stays `true` and only
its tag is overwritten, every other line keeping its (valid, tag) content. -/
theorem C1_lru_eviction_correct (s b E σ : Nat) (as : List Nat) (a2 : Nat)
    (hsb : s + b ≤ 64) (hE : 1 ≤ E) (hlen : as.length = E)
    (haddr : ∀ a ∈ as, a < 2 ^ 64) (ha2 : a2 < 2 ^ 64)
    (hset : ∀ a ∈ as, (get_set_and_tag a (64 - s - b) s).set_id = σ)
    (hset2 : (get_set_and_tag a2 (64 - s - b) s).set_id = σ)
    (hnodup : (as.map (fun x => (get_set_and_tag x (64 - s - b) s).tag_id)).Nodup)
    (hnew : (get_set_and_tag a2 (64 - s - b) s).tag_id
      ∉ as.map (fun x => (get_set_and_tag x (64 - s - b) s).tag_id)) :
    (replayAccesses (setup_cache s E b (64 - ((s : Int) + b))) as).1
        = List.replicate E HitOrMiss.coldMiss ∧
    (cache_access (replayAccesses (setup_cache s E b (64 - ((s : Int) + b))) as).2 a2).1
        = HitOrMiss.miss
            ((as.map (fun x => (get_set_and_tag x (64 - s - b) s).tag_id)).getD 0 0) ∧
    (getSet (replayAccesses (setup_cache s E b (64 - ((s : Int) + b))) as).2 σ).lines
        = (as.map (fun x => (get_set_and_tag x (64 - s - b) s).tag_id)).map mkValid ∧
    (getSet (cache_access (replayAccesses (setup_cache s E b (64 - ((s : Int) + b))) as).2 a2).2 σ).lines
        = mkValid (get_set_and_tag a2 (64 - s - b) s).tag_id
            :: ((as.map (fun x => (get_set_and_tag x (64 - s - b) s).tag_id)).drop 1).map mkValid := by
  have hc0t := setup_tbits_toNat s E b (64 - ((s : Int) + b)) hsb
  have hc0s := setup_sbits_toNat s E b (64 - ((s : Int) + b))
  have hc0l := setup_lines_per_set s E b (64 - ((s : Int) + b))
  have hσlt : σ < 2 ^ s := by
    obtain ⟨a0, ha0⟩ : ∃ a0, a0 ∈ as := by
      cases as with
      | nil => exfalso; rw [List.length_nil] at hlen; omega
      | cons x xs => exact ⟨x, List.mem_cons_self _ _⟩
    rw [← hset a0 ha0]
    exact set_id_lt a0 s b (haddr a0 ha0) hsb
  have hσlen : σ < (setup_cache s E b (64 - ((s : Int) + b))).sets.length := by
    rw [setup_sets_length]
    exact hσlt
  have hset' : ∀ a ∈ as, (get_set_and_tag a
      (setup_cache s E b (64 - ((s : Int) + b))).tbits.toNat
      (setup_cache s E b (64 - ((s : Int) + b))).sbits.toNat).set_id = σ := by
    intro a ha
    rw [hc0t, hc0s]
    exact hset a ha
  have hreplay := replay_same_set σ as (setup_cache s E b (64 - ((s : Int) + b))) hσlen hset'
  rw [hc0t, hc0s, hc0l, setup_getSet s E b _ σ hσlt, freshSet_eq_filled] at hreplay
  have htlen : (as.map (fun x => (get_set_and_tag x (64 - s - b) s).tag_id)).length = E := by
    rw [List.length_map, hlen]
  have hfill := scan_cold_fill E (as.map (fun x => (get_set_and_tag x (64 - s - b) s).tag_id)) []
    (by rw [List.length_nil]; omega) (fun u _ hmem => by cases hmem) hnodup
  rw [List.nil_append, htlen] at hfill
  have hA : (replayAccesses (setup_cache s E b (64 - ((s : Int) + b))) as).1
      = List.replicate E HitOrMiss.coldMiss := by
    rw [hreplay, hfill]
  have hc1t : (replayAccesses (setup_cache s E b (64 - ((s : Int) + b))) as).2.tbits.toNat
      = 64 - s - b := by
    rw [hreplay]
    exact hc0t
  have hc1s : (replayAccesses (setup_cache s E b (64 - ((s : Int) + b))) as).2.sbits.toNat = s := by
    rw [hreplay]
    exact hc0s
  have hc1l : (replayAccesses (setup_cache s E b (64 - ((s : Int) + b))) as).2.lines_per_set = E := by
    rw [hreplay]
  have hc1len : σ < (replayAccesses (setup_cache s E b (64 - ((s : Int) + b))) as).2.sets.length := by
    rw [hreplay]
    show σ < ((setup_cache s E b (64 - ((s : Int) + b))).sets.set σ _).length
    rw [List.length_set]
    exact hσlen
  have hc1get : getSet (replayAccesses (setup_cache s E b (64 - ((s : Int) + b))) as).2 σ
      = filledSet E (as.map (fun x => (get_set_and_tag x (64 - s - b) s).tag_id)) := by
    rw [hreplay, hfill]
    show ((setup_cache s E b (64 - ((s : Int) + b))).sets.set σ
      (filledSet E (as.map (fun x => (get_set_and_tag x (64 - s - b) s).tag_id)))).getD σ _ = _
    exact getD_set_self _ _ _ _ hσlen
  have hC : (getSet (replayAccesses (setup_cache s E b (64 - ((s : Int) + b))) as).2 σ).lines
      = (as.map (fun x => (get_set_and_tag x (64 - s - b) s).tag_id)).map mkValid := by
    rw [hc1get]
    show (as.map (fun x => (get_set_and_tag x (64 - s - b) s).tag_id)).map mkValid
        ++ List.replicate (E - (as.map (fun x => (get_set_and_tag x (64 - s - b) s).tag_id)).length)
          (⟨false, 0⟩ : Line) = _
    rw [htlen]
    simp
  have hset2' : (get_set_and_tag a2
      (replayAccesses (setup_cache s E b (64 - ((s : Int) + b))) as).2.tbits.toNat
      (replayAccesses (setup_cache s E b (64 - ((s : Int) + b))) as).2.sbits.toNat).set_id = σ := by
    rw [hc1t, hc1s]
    exact hset2
  have hacc2 := cache_access_same_set
    (replayAccesses (setup_cache s E b (64 - ((s : Int) + b))) as).2 a2 σ hset2'
  rw [hc1t, hc1s, hc1l, hc1get] at hacc2
  obtain ⟨hm1, hm2⟩ := scan_full_miss E
    (as.map (fun x => (get_set_and_tag x (64 - s - b) s).tag_id))
    (get_set_and_tag a2 (64 - s - b) s).tag_id htlen hE hnew
  have hB : (cache_access (replayAccesses (setup_cache s E b (64 - ((s : Int) + b))) as).2 a2).1
      = HitOrMiss.miss
        ((as.map (fun x => (get_set_and_tag x (64 - s - b) s).tag_id)).getD 0 0) := by
    rw [hacc2]
    exact hm1
  have hD : (getSet (cache_access
        (replayAccesses (setup_cache s E b (64 - ((s : Int) + b))) as).2 a2).2 σ).lines
      = mkValid (get_set_and_tag a2 (64 - s - b) s).tag_id
          :: ((as.map (fun x => (get_set_and_tag x (64 - s - b) s).tag_id)).drop 1).map mkValid := by
    rw [hacc2]
    show (((replayAccesses (setup_cache s E b (64 - ((s : Int) + b))) as).2.sets.set σ _).getD σ _).lines = _
    rw [getD_set_self _ _ _ _ hc1len]
    exact hm2
  exact ⟨hA, hB, hC, hD⟩

/-! ### The structural invariant and reachability -/

theorem set_out_of_range {α : Type} (l : List α) (i : Nat) (x : α) (h : l.length ≤ i) :
    l.set i x = l := by
  induction l generalizing i with
  | nil => rfl
  | cons a t ih =>
    cases i with
    | zero => simp at h
    | succ n => simpa using ih n (by simpa using h)

theorem mem_exists_getD {α : Type} (l : List α) (x d : α) (h : x ∈ l) :
    ∃ i, i < l.length ∧ l.getD i d = x := by
  induction l with
  | nil => simp at h
  | cons a t ih =>
    rcases List.mem_cons.1 h with h1 | h1
    · exact ⟨0, by simp, h1.symm⟩
    · obtain ⟨i, hi, hget⟩ := ih h1
      exact ⟨i + 1, by simpa using hi, hget⟩

/-- Scanning preserves the per-set invariant: the number of lines and the
fact that the recency list is a permutation of all line indices. -/
theorem scanSet_wf (E : Nat) (st : SetState) (t : Nat)
    (hlen : st.lines.length = E) (hperm : st.order.Perm (List.range E)) :
    (scanSet E st t).2.lines.length = E ∧ (scanSet E st t).2.order.Perm (List.range E) := by
  have hlenord : st.order.length = E := by rw [hperm.length_eq, List.length_range]
  unfold scanSet
  cases hf : findMatch st.lines t with
  | some i =>
    show (LRU_hit st t i).lines.length = E ∧ (LRU_hit st t i).order.Perm (List.range E)
    unfold LRU_hit
    by_cases hi : i ∈ st.order
    · rw [if_pos hi]
      exact ⟨by rw [show (SetState.mk (setTag st.lines i t) (i :: removeFirst i st.order)).lines
          = setTag st.lines i t from rfl, length_setTag]; exact hlen,
        (perm_cons_removeFirst i st.order hi).trans hperm⟩
    · rw [if_neg hi]
      exact ⟨hlen, hperm⟩
  | none =>
    by_cases hall : st.lines.all (fun l => l.valid)
    · rw [if_pos hall]
      show (LRU_miss E st t).lines.length = E ∧ (LRU_miss E st t).order.Perm (List.range E)
      constructor
      · show (setTag st.lines _ _).length = E
        rw [length_setTag]
        exact hlen
      · show (if 1 < E then victimIdx E st.order :: st.order.dropLast else st.order).Perm (List.range E)
        by_cases hE1 : 1 < E
        · rw [if_pos hE1]
          have hne : st.order ≠ [] := by
            intro hc
            rw [hc] at hlenord
            simp at hlenord
            omega
          unfold victimIdx
          rw [if_pos hE1]
          exact (perm_getLastD_dropLast st.order 0 hne).trans hperm
        · rw [if_neg hE1]
          exact hperm
    · rw [if_neg hall]
      show (LRU_cold st t).lines.length = E ∧ (LRU_cold st t).order.Perm (List.range E)
      unfold LRU_cold
      cases hfi : firstInvalid st.lines st.order with
      | some j =>
        obtain ⟨hj, _⟩ := firstInvalid_some _ _ _ hfi
        exact ⟨by rw [show (SetState.mk (st.lines.set j ⟨true, t⟩) (j :: removeFirst j st.order)).lines
            = st.lines.set j ⟨true, t⟩ from rfl, List.length_set]; exact hlen,
          (perm_cons_removeFirst j st.order hj).trans hperm⟩
      | none => exact ⟨hlen, hperm⟩

/-- Any access preserves the whole-cache invariant. -/
theorem cacheWF_access (s b E : Nat) (c : Cache) (a : Nat) (h : cacheWF s b E c) :
    cacheWF s b E (cache_access c a).2 := by
  obtain ⟨h1, h2, h3, h4, h5⟩ := h
  by_cases hσ : (get_set_and_tag a c.tbits.toNat c.sbits.toNat).set_id < c.sets.length
  · refine ⟨?_, h2, h3, h4, ?_⟩
    · show (c.sets.set _ _).length = 2 ^ s
      rw [List.length_set]
      exact h1
    · intro st hst
      rcases mem_of_mem_set _ _ _ _ hst with hmem | heq
      · exact h5 st hmem
      · subst heq
        obtain ⟨hl, hp⟩ := h5 _ (getD_mem _ _ _ hσ)
        rw [h2]
        exact scanSet_wf E _ _ (by exact hl) (by exact hp)
  · show cacheWF s b E { c with sets := c.sets.set _ _ }
    rw [set_out_of_range _ _ _ (by omega)]
    exact ⟨h1, h2, h3, h4, h5⟩

/-- Every reachable cache satisfies the structural invariant: established by
construction, preserved by every access. -/
theorem reachable_wf (s b E : Nat) (c : Cache) (h : ReachableCache s b E c) :
    cacheWF s b E c := by
  induction h with
  | base =>
    refine ⟨setup_sets_length s E b _, setup_lines_per_set s E b _, rfl, rfl, ?_⟩
    intro st hst
    have hst' : st = freshSet ((E : Int)).toNat := (List.mem_replicate.1 hst).2
    subst hst'
    constructor
    · show (List.replicate ((E : Int)).toNat (⟨false, 0⟩ : Line)).length = E
      rw [List.length_replicate]
      simp
    · show (List.range ((E : Int)).toNat).Perm (List.range E)
      rw [show ((E : Int)).toNat = E from by simp]
  | step c a hr ih => exact cacheWF_access s b E c a ih

/-! ### After an access the tag is resident; repeating it hits -/

theorem scanSet_hit_of_resident (E : Nat) (st : SetState) (t : Nat)
    (h : ∃ l ∈ st.lines, l.valid = true ∧ l.tag = t) : (scanSet E st t).1 = HitOrMiss.hit := by
  obtain ⟨i, hi⟩ := findMatch_isSome_of_resident st.lines t h
  unfold scanSet
  rw [hi]

/-- Whatever the outcome, after `scanSet` the accessed tag sits in a valid
line of the set (under the per-set invariant). -/
theorem scanSet_resident (E : Nat) (st : SetState) (t : Nat) (hE : 1 ≤ E)
    (hlen : st.lines.length = E) (hperm : st.order.Perm (List.range E)) :
    ∃ l ∈ (scanSet E st t).2.lines, l.valid = true ∧ l.tag = t := by
  have hlenord : st.order.length = E := by rw [hperm.length_eq, List.length_range]
  have hne : st.order ≠ [] := by
    intro hc
    rw [hc] at hlenord
    simp at hlenord
    omega
  have hmemlt : ∀ v, v ∈ st.order → v < st.lines.length := by
    intro v hv
    have := List.mem_range.1 (hperm.mem_iff.1 hv)
    omega
  unfold scanSet
  cases hf : findMatch st.lines t with
  | some i =>
    obtain ⟨hilt, htag, hval⟩ := findMatch_some st.lines t i hf
    show ∃ l ∈ (LRU_hit st t i).lines, l.valid = true ∧ l.tag = t
    unfold LRU_hit
    by_cases hi : i ∈ st.order
    · rw [if_pos hi]
      refine ⟨getLine (setTag st.lines i t) i, ?_, ?_, ?_⟩
      · exact getD_mem _ _ _ (by rw [length_setTag]; exact hilt)
      · rw [getLine_setTag_self _ _ _ hilt]
        exact hval
      · rw [getLine_setTag_self _ _ _ hilt]
    · rw [if_neg hi]
      exact ⟨getLine st.lines i, getD_mem _ _ _ hilt, hval, htag⟩
  | none =>
    by_cases hall : st.lines.all (fun l => l.valid)
    · rw [if_pos hall]
      show ∃ l ∈ (LRU_miss E st t).lines, l.valid = true ∧ l.tag = t
      unfold LRU_miss
      have hvmem : victimIdx E st.order ∈ st.order := by
        unfold victimIdx
        by_cases hE1 : 1 < E
        · rw [if_pos hE1]
          exact mem_getLastD _ _ hne
        · rw [if_neg hE1]
          exact mem_headD _ _ hne
      have hvlt : victimIdx E st.order < st.lines.length := hmemlt _ hvmem
      refine ⟨getLine (setTag st.lines (victimIdx E st.order) t) (victimIdx E st.order), ?_, ?_, ?_⟩
      · exact getD_mem _ _ _ (by rw [length_setTag]; exact hvlt)
      · rw [getLine_setTag_self _ _ _ hvlt]
        show (getLine st.lines (victimIdx E st.order)).valid = true
        exact List.all_eq_true.1 hall _ (getD_mem _ _ _ hvlt)
      · rw [getLine_setTag_self _ _ _ hvlt]
    · rw [if_neg hall]
      show ∃ l ∈ (LRU_cold st t).lines, l.valid = true ∧ l.tag = t
      unfold LRU_cold
      cases hfi : firstInvalid st.lines st.order with
      | some j =>
        obtain ⟨hj, _⟩ := firstInvalid_some _ _ _ hfi
        have hjlt : j < st.lines.length := hmemlt _ hj
        refine ⟨(st.lines.set j (⟨true, t⟩ : Line)).getD j (⟨false, 0⟩ : Line), ?_, ?_, ?_⟩
        · exact getD_mem _ _ _ (by rw [List.length_set]; exact hjlt)
        · rw [getD_set_self _ _ _ _ hjlt]
        · rw [getD_set_self _ _ _ _ hjlt]
      | none =>
        exfalso
        have hvalid := firstInvalid_none _ _ hfi
        apply hall
        apply List.all_eq_true.2
        intro x hx
        obtain ⟨i, hilt, hget⟩ := mem_exists_getD st.lines x (⟨false, 0⟩ : Line) hx
        have hio : i ∈ st.order := by
          apply hperm.mem_iff.2
          apply List.mem_range.2
          omega
        have := hvalid i hio
        rw [show getLine st.lines i = st.lines.getD i ⟨false, 0⟩ from rfl, hget] at this
        exact this

/-- C3: in any reachable cache of a valid geometry, an access immediately
repeated at the same address is a hit: the first access, whatever its
outcome, leaves the address's tag resident and valid in its set. -/
theorem C3_repeat_access_hits (s b E : Nat) (c : Cache) (a : Nat)
    (hsb : s + b ≤ 64) (hE : 1 ≤ E) (ha : a < 2 ^ 64)
    (hreach : ReachableCache s b E c) :
    (cache_access (cache_access c a).2 a).1 = HitOrMiss.hit := by
  obtain ⟨h1, h2, h3, h4, h5⟩ := reachable_wf s b E c hreach
  have hta : c.tbits.toNat = 64 - s - b := by
    rw [h4]
    omega
  have hsa : c.sbits.toNat = s := by
    rw [h3]
    simp
  have hσ : (get_set_and_tag a c.tbits.toNat c.sbits.toNat).set_id < c.sets.length := by
    rw [hta, hsa, h1]
    exact set_id_lt a s b ha hsb
  obtain ⟨hl, hp⟩ := h5 _ (getD_mem c.sets (get_set_and_tag a c.tbits.toNat c.sbits.toNat).set_id ⟨[], []⟩ hσ)
  have hres := scanSet_resident c.lines_per_set
    (getSet c (get_set_and_tag a c.tbits.toNat c.sbits.toNat).set_id)
    (get_set_and_tag a c.tbits.toNat c.sbits.toNat).tag_id
    (by rw [h2]; exact hE) (by rw [h2]; exact hl) (by rw [h2]; exact hp)
  have hget2 : getSet (cache_access c a).2
      (get_set_and_tag a c.tbits.toNat c.sbits.toNat).set_id
      = (scanSet c.lines_per_set
          (getSet c (get_set_and_tag a c.tbits.toNat c.sbits.toNat).set_id)
          (get_set_and_tag a c.tbits.toNat c.sbits.toNat).tag_id).2 := by
    show ((c.sets.set (get_set_and_tag a c.tbits.toNat c.sbits.toNat).set_id
        (scanSet c.lines_per_set
          (getSet c (get_set_and_tag a c.tbits.toNat c.sbits.toNat).set_id)
          (get_set_and_tag a c.tbits.toNat c.sbits.toNat).tag_id).2)).getD
      (get_set_and_tag a c.tbits.toNat c.sbits.toNat).set_id ⟨[], []⟩ = _
    exact getD_set_self _ _ _ _ hσ
  show (scanSet c.lines_per_set
      (getSet (cache_access c a).2 (get_set_and_tag a c.tbits.toNat c.sbits.toNat).set_id)
      (get_set_and_tag a c.tbits.toNat c.sbits.toNat).tag_id).1 = HitOrMiss.hit
  rw [hget2]
  exact scanSet_hit_of_resident _ _ _ hres

/-! ### Claims C7 and C3 wrappers, C9 -/

/-- C7 (recency-order invariant): in every cache state reachable from
construction by any sequence of accesses, each set's recency order is a
permutation of all of that set's slot indices `0, ..., E-1`, and its length
never changes (it always equals `E`). -/
theorem C7_recency_order_invariant (s b E : Nat) (c : Cache)
    (h : ReachableCache s b E c) : setsWF E c := by
  obtain ⟨_, _, _, _, h5⟩ := reachable_wf s b E c h
  intro st hst
  obtain ⟨_, hp⟩ := h5 st hst
  exact ⟨hp, by rw [hp.length_eq, List.length_range]⟩

theorem getD_map_lines (l : List SetState) (i : Nat) (d : SetState) (h : i < l.length) :
    (l.map SetState.lines).getD i d.lines = (l.getD i d).lines := by
  induction l generalizing i with
  | nil => simp at h
  | cons a t ih =>
    cases i with
    | zero => rfl
    | succ n => simpa using ih n (by simpa using h)

/-- C9 (hit frame property): when an access hits, the (valid, tag) content of
every line in every set is unchanged (the matching line's tag is rewritten
with the identical value); the only component that can change is the
accessed set's recency order, every other set being untouched. -/
theorem C9_hit_frame (c : Cache) (a : Nat) (h : (cache_access c a).1 = HitOrMiss.hit) :
    (cache_access c a).2.sets.map SetState.lines = c.sets.map SetState.lines ∧
    (cache_access c a).2.sets
      = c.sets.set (get_set_and_tag a c.tbits.toNat c.sbits.toNat).set_id
          (getSet (cache_access c a).2 (get_set_and_tag a c.tbits.toNat c.sbits.toNat).set_id) := by
  have h1 : (scanSet c.lines_per_set
      (getSet c (get_set_and_tag a c.tbits.toNat c.sbits.toNat).set_id)
      (get_set_and_tag a c.tbits.toNat c.sbits.toNat).tag_id).1 = HitOrMiss.hit := h
  have hlines : (scanSet c.lines_per_set
      (getSet c (get_set_and_tag a c.tbits.toNat c.sbits.toNat).set_id)
      (get_set_and_tag a c.tbits.toNat c.sbits.toNat).tag_id).2.lines
      = (getSet c (get_set_and_tag a c.tbits.toNat c.sbits.toNat).set_id).lines := by
    unfold scanSet at h1 ⊢
    cases hf : findMatch
        (getSet c (get_set_and_tag a c.tbits.toNat c.sbits.toNat).set_id).lines
        (get_set_and_tag a c.tbits.toNat c.sbits.toNat).tag_id with
    | none =>
      rw [hf] at h1
      by_cases hall : (getSet c (get_set_and_tag a c.tbits.toNat c.sbits.toNat).set_id).lines.all
          (fun l => l.valid)
      · rw [if_pos hall] at h1
        simp at h1
      · rw [if_neg hall] at h1
        simp at h1
    | some i =>
      show (LRU_hit _ _ i).lines = _
      unfold LRU_hit
      by_cases hi : i ∈ (getSet c (get_set_and_tag a c.tbits.toNat c.sbits.toNat).set_id).order
      · rw [if_pos hi]
        exact setTag_of_match _ _ _ hf
      · rw [if_neg hi]
  constructor
  · show (c.sets.set (get_set_and_tag a c.tbits.toNat c.sbits.toNat).set_id
        (scanSet c.lines_per_set
          (getSet c (get_set_and_tag a c.tbits.toNat c.sbits.toNat).set_id)
          (get_set_and_tag a c.tbits.toNat c.sbits.toNat).tag_id).2).map SetState.lines
      = c.sets.map SetState.lines
    by_cases hσ : (get_set_and_tag a c.tbits.toNat c.sbits.toNat).set_id < c.sets.length
    · rw [List.map_set, hlines]
      show (c.sets.map SetState.lines).set _
        (getSet c (get_set_and_tag a c.tbits.toNat c.sbits.toNat).set_id).lines = _
      rw [show (getSet c (get_set_and_tag a c.tbits.toNat c.sbits.toNat).set_id).lines
        = (c.sets.map SetState.lines).getD
            (get_set_and_tag a c.tbits.toNat c.sbits.toNat).set_id
            (SetState.mk [] []).lines from (getD_map_lines c.sets _ ⟨[], []⟩ hσ).symm]
      exact set_getD_self _ _ _
    · rw [set_out_of_range _ _ _ (by omega)]
  · by_cases hσ : (get_set_and_tag a c.tbits.toNat c.sbits.toNat).set_id < c.sets.length
    · show c.sets.set _ _ = c.sets.set _ (getSet (cache_access c a).2 _)
      rw [show getSet (cache_access c a).2
            (get_set_and_tag a c.tbits.toNat c.sbits.toNat).set_id
          = (scanSet c.lines_per_set
              (getSet c (get_set_and_tag a c.tbits.toNat c.sbits.toNat).set_id)
              (get_set_and_tag a c.tbits.toNat c.sbits.toNat).tag_id).2 from
        getD_set_self _ _ _ _ hσ]
    · show c.sets.set _ _ = c.sets.set _ (getSet (cache_access c a).2 _)
      rw [set_out_of_range _ _ _ (by omega), set_out_of_range _ _ _ (by omega)]

/-! ### Claims C4, C2, C8, C10, C5, C6 -/

/-- C4 (Modify-record counting): a `'M'` record performs exactly one
cache-state-updating access (the resulting cache equals that of a single
`'L'` record at the same address); it adds 2 to `hits` when that access
hits, and otherwise adds 1 to `hits` (the unconditional pre-increment) and
1 to `misses` (plus 1 to `evictions` on an eviction miss) — so a Modify
record always adds at least 1 to the hit counter. -/
theorem C4_modify_record_counting (c : Cache) (cp : CachePerformance) (a : Nat) (sz : Int) :
    (processRecord c cp ⟨'M', a, sz⟩).1 = (processRecord c cp ⟨'L', a, sz⟩).1 ∧
    (processRecord c cp ⟨'M', a, sz⟩).2.hits
      = cp.hits + (match (cache_scan (get_set_and_tag (a % 2 ^ 32) c.tbits.toNat c.sbits.toNat) c).1 with
          | HitOrMiss.hit => 2
          | _ => 1) ∧
    (processRecord c cp ⟨'M', a, sz⟩).2.misses
      = cp.misses + (match (cache_scan (get_set_and_tag (a % 2 ^ 32) c.tbits.toNat c.sbits.toNat) c).1 with
          | HitOrMiss.hit => 0
          | _ => 1) ∧
    (processRecord c cp ⟨'M', a, sz⟩).2.evictions
      = cp.evictions + (match (cache_scan (get_set_and_tag (a % 2 ^ 32) c.tbits.toNat c.sbits.toNat) c).1 with
          | HitOrMiss.miss e => 1
          | _ => 0) ∧
    cp.hits + 1 ≤ (processRecord c cp ⟨'M', a, sz⟩).2.hits := by
  have hM : processRecord c cp ⟨'M', a, sz⟩
      = ((cache_scan (get_set_and_tag (a % 2 ^ 32) c.tbits.toNat c.sbits.toNat) c).2,
         countScan { cp with hits := cp.hits + 1 }
           (cache_scan (get_set_and_tag (a % 2 ^ 32) c.tbits.toNat c.sbits.toNat) c).1) := rfl
  have hL : processRecord c cp ⟨'L', a, sz⟩
      = ((cache_scan (get_set_and_tag (a % 2 ^ 32) c.tbits.toNat c.sbits.toNat) c).2,
         countScan cp
           (cache_scan (get_set_and_tag (a % 2 ^ 32) c.tbits.toNat c.sbits.toNat) c).1) := rfl
  rw [hM, hL]
  cases hout : (cache_scan (get_set_and_tag (a % 2 ^ 32) c.tbits.toNat c.sbits.toNat) c).1 with
  | hit => exact ⟨rfl, rfl, rfl, rfl, Nat.le_succ _⟩
  | coldMiss => exact ⟨rfl, rfl, rfl, rfl, Nat.le_refl _⟩
  | miss e => exact ⟨rfl, rfl, rfl, rfl, Nat.le_refl _⟩

/-- C2 (address decoding): for every 64-bit address and valid geometry
(`s + b ≤ 64`, `tag_bits = 64 - s - b`), `get_set_and_tag` is a total
function returning the top `tag_bits` bits of the address as the tag and
address bits `[b, b + s)` as the set index; the degenerate cases `s = 0`
(set index always `0`) and `tag_bits = 0` (tag always `0`) are instances. -/
theorem C2_address_decoding (a s b : Nat) (ha : a < 2 ^ 64) (hsb : s + b ≤ 64) :
    get_set_and_tag a (64 - s - b) s
      = ⟨(a >>> b) % 2 ^ s, a >>> (s + b)⟩ :=
  get_set_and_tag_eq a s b ha hsb

/-- C8 (32-bit address truncation): the trace loop parses each address into
an `unsigned int`, so every value handed to decoding is below `2 ^ 32`, and
two traces whose records agree on operation and on the low 32 address bits
produce identical cache states and counters. -/
theorem C8_parsed_address_32bit (c : Cache) (cp : CachePerformance) (tr tr2 : List TraceRecord)
    (h : List.Forall₂
      (fun r r2 => r.op = r2.op ∧ r.address % 2 ^ 32 = r2.address % 2 ^ 32) tr tr2) :
    ((tr.map parsedAddress).all (fun x => decide (x < 2 ^ 32)) = true) ∧
    simulate_cache c cp tr = simulate_cache c cp tr2 := by
  constructor
  · apply List.all_eq_true.2
    intro x hx
    obtain ⟨r, _, rfl⟩ := List.mem_map.1 hx
    exact decide_eq_true (Nat.mod_lt _ (by norm_num))
  · induction h generalizing c cp with
    | nil => rfl
    | @cons r r2 l1 l2 hr hrest ih =>
      have hpr : processRecord c cp r = processRecord c cp r2 := by
        unfold processRecord parsedAddress
        rw [hr.1, hr.2]
      show (let step := processRecord c cp r; simulate_cache step.1 step.2 l1)
          = (let step := processRecord c cp r2; simulate_cache step.1 step.2 l2)
      rw [hpr]
      exact ih _ _

/-- C10 (initial recency order and cold-fill order): construction gives every
set the recency order `[0, 1, ..., E-1]` (slot 0 at the head), and a run of
consecutive cold misses with distinct fresh tags on a freshly built set
occupies slots `0, 1, ..., E-1` in increasing index order, the `i`-th access
landing in slot `i`. -/
theorem C10_fresh_order_and_cold_fill (s E b : Nat) (t : Int) (ts : List Nat)
    (hnodup : ts.Nodup) (hle : ts.length ≤ E) :
    (setup_cache s E b t).sets = List.replicate (numSets s) (freshSet E) ∧
    (freshSet E).order = List.range E ∧
    (scanTags E (freshSet E) ts).1 = List.replicate ts.length HitOrMiss.coldMiss ∧
    (scanTags E (freshSet E) ts).2.lines
      = ts.map mkValid ++ List.replicate (E - ts.length) (⟨false, 0⟩ : Line) := by
  have hfill := scan_cold_fill E ts [] (by rw [List.length_nil]; omega)
    (fun u _ hm => by cases hm) hnodup
  rw [List.nil_append] at hfill
  refine ⟨by simp [setup_cache], rfl, ?_, ?_⟩
  · rw [freshSet_eq_filled, hfill]
  · rw [freshSet_eq_filled, hfill]
    rfl

/-- C5 amended: `setup_cache` performs no configuration validation at all —
for every parameter combination (including `set_index_bits +
block_offset_bits > 64` and negative widths) it unconditionally returns a
cache, storing `tbits = 64 - (sbits + bytes_per_line)` (possibly negative)
and allocating `numSets sbits` sets; no error is ever produced, at build
time or later. -/
theorem C5_no_configuration_validation (s E b t : Int) :
    (setup_cache s E b t).tbits = 64 - (s + b) ∧
    (setup_cache s E b t).sets.length = numSets s ∧
    (setup_cache s E b t).lines_per_set = E.toNat := by
  refine ⟨rfl, ?_, rfl⟩
  simp [setup_cache]

/-- C5 counterexample: with `set_index_bits + block_offset_bits = 65 > 64`
the construction does not fail fast — it succeeds, yielding a cache with
`tbits = -1`, and trace processing then proceeds normally (a load record is
processed and counted as a miss), contradicting the claim that such a
configuration error is surfaced at build time. -/
theorem C5_counterexample_no_failfast :
    (setup_cache 0 2 65 (-1)).tbits = -1 ∧
    (setup_cache 0 2 65 (-1)).sets.length = 1 ∧
    (simulate_cache (setup_cache 0 2 65 (-1)) ⟨0, 0, 0⟩ [⟨'L', 5, 1⟩]).2
      = ⟨0, 1, 0⟩ := by
  refine ⟨rfl, rfl, ?_⟩
  decide

/-- C6 amended: with `set_index_bits = 0`, `lines_per_set = 2`,
`block_offset_bits = 0` (one set, capacity 2, `tag_bits = 64`), the load
sequence `[1, 2, 1, 3]` yields outcomes
`[coldMiss, coldMiss, hit, miss 2]` (the tag evicted on the fourth access is
`2`), and the final counters are `hits = 1`, `misses = 3`, `evictions = 1`:
the code counts cold misses in `misses` too, so `misses` is 3, not 1. -/
theorem C6_scenario_1_2_1_3 :
    (replayAccesses (setup_cache 0 2 0 64) [1, 2, 1, 3]).1
      = [HitOrMiss.coldMiss, HitOrMiss.coldMiss, HitOrMiss.hit, HitOrMiss.miss 2] ∧
    (simulate_cache (setup_cache 0 2 0 64) ⟨0, 0, 0⟩
        [⟨'L', 1, 1⟩, ⟨'L', 2, 1⟩, ⟨'L', 1, 1⟩, ⟨'L', 3, 1⟩]).2
      = ⟨1, 3, 1⟩ := by
  constructor
  · decide
  · decide

/-- C6 counterexample: for the claimed scenario the misses counter ends at 3
(cold misses are counted in `misses` by `simulate_cache`), not at the
claimed 1. -/
theorem C6_counterexample_misses :
    (simulate_cache (setup_cache 0 2 0 64) ⟨0, 0, 0⟩
        [⟨'L', 1, 1⟩, ⟨'L', 2, 1⟩, ⟨'L', 1, 1⟩, ⟨'L', 3, 1⟩]).2.misses = 3 ∧
    ¬ (simulate_cache (setup_cache 0 2 0 64) ⟨0, 0, 0⟩
        [⟨'L', 1, 1⟩, ⟨'L', 2, 1⟩, ⟨'L', 1, 1⟩, ⟨'L', 3, 1⟩]).2.misses = 1 := by
  constructor
  · decide
  · decide

/-! ### Witnesses -/

/-- Witness for C1 at `s = 0`, `b = 0`, `E = 2`, addresses `[1, 2]` then `3`. -/
theorem C1_lru_eviction_correct_witness :
    (replayAccesses (setup_cache 0 2 0 (64 - ((0 : Int) + 0))) [1, 2]).1
        = List.replicate 2 HitOrMiss.coldMiss ∧
    (cache_access (replayAccesses (setup_cache 0 2 0 (64 - ((0 : Int) + 0))) [1, 2]).2 3).1
        = HitOrMiss.miss
            ((([1, 2] : List Nat).map (fun x => (get_set_and_tag x (64 - 0 - 0) 0).tag_id)).getD 0 0) ∧
    (getSet (replayAccesses (setup_cache 0 2 0 (64 - ((0 : Int) + 0))) [1, 2]).2 0).lines
        = (([1, 2] : List Nat).map (fun x => (get_set_and_tag x (64 - 0 - 0) 0).tag_id)).map mkValid ∧
    (getSet (cache_access (replayAccesses (setup_cache 0 2 0 (64 - ((0 : Int) + 0))) [1, 2]).2 3).2 0).lines
        = mkValid (get_set_and_tag 3 (64 - 0 - 0) 0).tag_id
            :: ((([1, 2] : List Nat).map (fun x => (get_set_and_tag x (64 - 0 - 0) 0).tag_id)).drop 1).map mkValid :=
  C1_lru_eviction_correct 0 0 2 0 [1, 2] 3 (by decide) (by decide) (by decide)
    (by decide) (by decide) (by decide) (by decide) (by decide) (by decide)

/-- Witness for C2 at address `0xABCD`, `s = 4`, `b = 4`. -/
theorem C2_address_decoding_witness :
    get_set_and_tag 43981 (64 - 4 - 4) 4 = ⟨(43981 >>> 4) % 2 ^ 4, 43981 >>> (4 + 4)⟩ :=
  C2_address_decoding 43981 4 4 (by decide) (by decide)

/-- Witness for C3 on the freshly built direct-mapped single-set cache. -/
theorem C3_repeat_access_hits_witness :
    (cache_access (cache_access (setup_cache 0 1 0 (64 - ((0 : Int) + 0))) 5).2 5).1
      = HitOrMiss.hit :=
  C3_repeat_access_hits 0 0 1 _ 5 (by decide) (by decide) (by decide) ReachableCache.base

/-- Witness for C7 on the freshly built cache. -/
theorem C7_recency_order_invariant_witness :
    setsWF 1 (setup_cache 0 1 0 (64 - ((0 : Int) + 0))) :=
  C7_recency_order_invariant 0 0 1 _ ReachableCache.base

/-- Witness for C8 on two one-record traces agreeing in the low 32 bits. -/
theorem C8_parsed_address_32bit_witness :
    ((([⟨'L', 5, 1⟩] : List TraceRecord).map parsedAddress).all
        (fun x => decide (x < 2 ^ 32)) = true) ∧
    simulate_cache (setup_cache 0 1 0 64) ⟨0, 0, 0⟩ [⟨'L', 5, 1⟩]
      = simulate_cache (setup_cache 0 1 0 64) ⟨0, 0, 0⟩ [⟨'L', 5 + 2 ^ 32, 1⟩] :=
  C8_parsed_address_32bit (setup_cache 0 1 0 64) ⟨0, 0, 0⟩ _ _
    (List.Forall₂.cons ⟨rfl, by decide⟩ List.Forall₂.nil)

/-- Witness for C9 on a second access to the same address (a hit). -/
theorem C9_hit_frame_witness :
    (cache_access (cache_access (setup_cache 0 1 0 64) 5).2 5).2.sets.map SetState.lines
      = (cache_access (setup_cache 0 1 0 64) 5).2.sets.map SetState.lines ∧
    (cache_access (cache_access (setup_cache 0 1 0 64) 5).2 5).2.sets
      = (cache_access (setup_cache 0 1 0 64) 5).2.sets.set
          (get_set_and_tag 5 (cache_access (setup_cache 0 1 0 64) 5).2.tbits.toNat
            (cache_access (setup_cache 0 1 0 64) 5).2.sbits.toNat).set_id
          (getSet (cache_access (cache_access (setup_cache 0 1 0 64) 5).2 5).2
            (get_set_and_tag 5 (cache_access (setup_cache 0 1 0 64) 5).2.tbits.toNat
              (cache_access (setup_cache 0 1 0 64) 5).2.sbits.toNat).set_id) :=
  C9_hit_frame _ 5 (by decide)

/-- Witness for C10 at `E = 3` with the distinct tags `[5, 7]`. -/
theorem C10_fresh_order_and_cold_fill_witness :
    (setup_cache 0 3 0 64).sets = List.replicate (numSets 0) (freshSet 3) ∧
    (freshSet 3).order = List.range 3 ∧
    (scanTags 3 (freshSet 3) [5, 7]).1
      = List.replicate ([5, 7] : List Nat).length HitOrMiss.coldMiss ∧
    (scanTags 3 (freshSet 3) [5, 7]).2.lines
      = ([5, 7] : List Nat).map mkValid
          ++ List.replicate (3 - ([5, 7] : List Nat).length) (⟨false, 0⟩ : Line) :=
  C10_fresh_order_and_cold_fill 0 3 0 64 [5, 7] (by decide) (by decide)
